import Mathlib

/-!
Verification of the NNQF filter (nnqf_filter.py) against its design
specification.

The source is a single Python routine built from four stages:
variance-based feature weighting, nearest-neighbor search (delegated to
sklearn NearestNeighbors with Minkowski distance), neighbor-output
aggregation (an incremental vstack loop), and a row-wise quantile
reduction (np.quantile, linear interpolation).

Shallow embedding conventions:
- matrices are lists of rows over the rationals; the source works over
  IEEE floats, and on the inputs the theorems speak about (finite values,
  no zero-variance column on the weighted path) the float pipeline and
  the rational pipeline perform the same field operations;
- the nearest-neighbor collaborator is modelled by the contract of the
  design document, section 4.2: for each sample, the k smallest Minkowski
  distances, sorted ascending, ties broken deterministically by sample
  index.  The model ranks by the p-th power of the Minkowski distance,
  which induces the same ordering because the p-th root is strictly
  monotone on the nonnegative reals;
- failure propagation is explicit: the embedded pipeline returns
  an Except value, and the error constructors name the library failure
  that the corresponding Python expression raises.
-/

namespace NNQF

/-- Failures observable from the pipeline.  The first group models the
exceptions actually raised by the libraries the source calls into; the
second group is modelled from the spec: section 7 of the design document
postulates a typed error taxonomy (InvalidK, ShapeMismatch,
DegenerateFeature, InvalidQuantile), which appears nowhere in the source. -/
inductive PyErr where
  /-- ValueError raised by sklearn when n_neighbors is not in [1, N]. -/
  | sklearnInvalidNeighbors : PyErr
  /-- ValueError raised by sklearn input validation on inf or nan entries
  (the result of the inverse-variance weighting of a constant column). -/
  | sklearnNonFinite : PyErr
  /-- IndexError raised by numpy fancy indexing when a gathered index is
  out of range for y_output. -/
  | numpyIndexError : PyErr
  /-- ValueError raised by np.quantile when q is outside [0, 1]. -/
  | numpyBadQuantile : PyErr
  /-- AxisError raised by np.quantile with axis = 1 on a 1-D array. -/
  | numpyAxisError : PyErr
  /-- Modelled from the spec: the typed InvalidK failure of section 7.
  The source raises no such failure. -/
  | invalidK : PyErr
  /-- Modelled from the spec: the typed ShapeMismatch failure of section 7.
  The source raises no such failure. -/
  | shapeMismatch : PyErr
  /-- Modelled from the spec: the typed DegenerateFeature failure of
  section 7.  The source raises no such failure. -/
  | degenerateFeature : PyErr
  deriving DecidableEq, Repr

/-- A numpy array that is either 1-D or 2-D, as produced by the
incremental vstack accumulation of the source (lines 97-100): the
accumulator starts as the 1-D gather for row 0 and becomes 2-D at the
first vstack. -/
inductive NpArr where
  | one : List ℚ → NpArr
  | two : List (List ℚ) → NpArr
  deriving DecidableEq, Repr

/-- The rows of an array: a 1-D array of length k reads as one row. -/
def toRows : NpArr → List (List ℚ)
  | .one g => [g]
  | .two m => m

instance exceptDecEq {ε α : Type} [DecidableEq ε] [DecidableEq α] :
    DecidableEq (Except ε α) := fun a b =>
  match a, b with
  | .error e, .error f =>
    if h : e = f then .isTrue (by rw [h]) else .isFalse (fun hc => h (by injection hc))
  | .error _, .ok _ => .isFalse (fun hc => Except.noConfusion hc)
  | .ok _, .error _ => .isFalse (fun hc => Except.noConfusion hc)
  | .ok u, .ok v =>
    if h : u = v then .isTrue (by rw [h]) else .isFalse (fun hc => h (by injection hc))

/-- Number of columns of the feature matrix (numpy shape, second axis). -/
def numCols (x : List (List ℚ)) : ℕ := (x.headD []).length

/-- Mean of feature column j over all rows: np.mean semantics. -/
def colMean (x : List (List ℚ)) (j : ℕ) : ℚ :=
  (x.map fun r => r.getD j 0).sum / x.length

/-- Population variance (ddof = 0) of feature column j over all rows:
np.var(x_input, axis = 0), line 81 of the source. -/
def colVar (x : List (List ℚ)) (j : ℕ) : ℚ :=
  (x.map fun r => (r.getD j 0 - colMean x j) ^ 2).sum / x.length

/-- The per-column weights var_weights ** (-1) of line 82. -/
def varWeights (x : List (List ℚ)) : List ℚ :=
  (List.range (numCols x)).map fun j => (colVar x j)⁻¹

/-- The broadcast product var_weights ** (-1) * x_input of line 82. -/
def weightMatrix (x : List (List ℚ)) : List (List ℚ) :=
  x.map fun r => List.zipWith (fun w v => w * v) (varWeights x) r

/-- Lines 80-82 of the source: the input matrix is rescaled by the
inverse column variances exactly when var_weighting is set. -/
def featureWeight (vw : Bool) (x : List (List ℚ)) : List (List ℚ) :=
  if vw then weightMatrix x else x

/-- True when some feature column has zero variance.  Under
var_weighting the float pipeline then divides by zero, so the weighted
matrix holds inf or nan entries and the sklearn input validation of fit
rejects it. -/
def hasDegenerateColumn (x : List (List ℚ)) : Bool :=
  (List.range (numCols x)).any fun j => decide (colVar x j = 0)

/-- The p-th power of the Minkowski distance of order p between two
feature rows.  Ranking rows by this quantity is the ranking by Minkowski
distance used by the neighbor search, since the p-th root is strictly
monotone on the nonnegative reals. -/
def minkPow (p : ℕ) (u v : List ℚ) : ℚ :=
  (List.zipWith (fun a b => |a - b| ^ p) u v).sum

/-- Comparison used to order candidate neighbors: by powered distance,
ties by sample index ascending (a deterministic instance of the
tie-break order the design document leaves to the backend). -/
def pairLe (a b : ℚ × ℕ) : Prop :=
  a.1 < b.1 ∨ (a.1 = b.1 ∧ a.2 ≤ b.2)

instance : DecidableRel pairLe := fun a b =>
  inferInstanceAs (Decidable (a.1 < b.1 ∨ (a.1 = b.1 ∧ a.2 ≤ b.2)))

instance : IsTrans (ℚ × ℕ) pairLe where
  trans a b c hab hbc := by
    rcases hab with h | ⟨h1, h2⟩ <;> rcases hbc with g | ⟨g1, g2⟩
    · exact Or.inl (lt_trans h g)
    · exact Or.inl (g1 ▸ h)
    · exact Or.inl (h1 ▸ g)
    · exact Or.inr ⟨h1.trans g1, le_trans h2 g2⟩

instance : IsTotal (ℚ × ℕ) pairLe where
  total a b := by
    rcases lt_trichotomy a.1 b.1 with h | h | h
    · exact Or.inl (Or.inl h)
    · rcases le_total a.2 b.2 with g | g
      · exact Or.inl (Or.inr ⟨h, g⟩)
      · exact Or.inr (Or.inr ⟨h.symm, g⟩)
    · exact Or.inr (Or.inl h)

/-- Model of the external nearest-neighbor collaborator for one query
row: the indices of the k samples of xw closest to u under Minkowski
distance of order p, ascending, ties by index. -/
def knnRow (p : ℕ) (xw : List (List ℚ)) (u : List ℚ) (k : ℕ) : List ℕ :=
  ((List.insertionSort pairLe
      ((List.range xw.length).map fun j => (minkPow p u (xw.getD j []), j))).take k).map
    Prod.snd

/-- The Neighbor Index Table: line 89-90 of the source, indx =
kneighbors(x_input) on the (possibly weighted) matrix, one row of k
indices per sample. -/
def knnTable (x : List (List ℚ)) (k p : ℕ) (vw : Bool) : List (List ℕ) :=
  let xw := featureWeight vw x
  (List.range xw.length).map fun i => knnRow p xw (xw.getD i []) k

/-- numpy fancy indexing y_output[indx[i, :]]: gathers the output values
at the given indices, raising IndexError when an index is out of range. -/
def gatherRow (y : List ℚ) (r : List ℕ) : Except PyErr (List ℚ) :=
  if r.all fun j => decide (j < y.length) then
    .ok (r.map fun j => y.getD j 0)
  else .error .numpyIndexError

/-- The gathers performed by the loop of lines 98-100, left to right. -/
def gatherRows (y : List ℚ) : List (List ℕ) → Except PyErr (List (List ℚ))
  | [] => .ok []
  | r :: rs =>
    match gatherRow y r with
    | .error e => .error e
    | .ok g =>
      match gatherRows y rs with
      | .error e => .error e
      | .ok gs => .ok (g :: gs)

/-- Lines 97-100 of the source: y_neighbors is seeded with the 1-D
gather for row 0 and grown by vstack for rows 1 to N-1.  With a single
row the accumulator stays 1-D; with two or more rows it is the 2-D
table of all gathers. -/
def buildNeighbors (y : List ℚ) (indx : List (List ℕ)) : Except PyErr NpArr :=
  match indx with
  | [] => .error .numpyIndexError
  | [r] =>
    match gatherRow y r with
    | .error e => .error e
    | .ok g => .ok (.one g)
  | r1 :: r2 :: rest =>
    match gatherRows y (r1 :: r2 :: rest) with
    | .error e => .error e
    | .ok m => .ok (.two m)

/-- np.sort of a row of values. -/
def sortedRow (a : List ℚ) : List ℚ :=
  List.insertionSort (fun u v => u ≤ v) a

/-- Linear interpolation between order statistics at virtual index h:
given the sorted row s, returns s[floor h] + (h - floor h) *
(s[ceil h] - s[floor h]), the numpy linear quantile method. -/
def interp (s : List ℚ) (h : ℚ) : ℚ :=
  s.getD (⌊h⌋.toNat) 0 + (h - ⌊h⌋) * (s.getD (⌈h⌉.toNat) 0 - s.getD (⌊h⌋.toNat) 0)

/-- The q-quantile of a row of k values under the numpy default linear
method: interpolation at virtual index q * (k - 1) of the sorted row. -/
def rowQuantile (q : ℚ) (a : List ℚ) : ℚ :=
  interp (sortedRow a) (q * ((a.length : ℚ) - 1))

/-- np.quantile(y_neighbors, q, axis = 1), line 106: rejects q outside
[0, 1], raises AxisError on a 1-D array, and otherwise reduces each row
to its q-quantile. -/
def npQuantileAxis1 (q : ℚ) (arr : NpArr) : Except PyErr (List ℚ) :=
  if q < 0 ∨ 1 < q then .error .numpyBadQuantile
  else
    match arr with
    | .one _ => .error .numpyAxisError
    | .two m => .ok (m.map (rowQuantile q))

/-- The whole routine nnqf_filter (lines 40-108): variance weighting,
then the sklearn calls of lines 89-90 (whose validation rejects
n_neighbors below 1, then non-finite entries produced by a zero-variance
column under var_weighting, then n_neighbors above N), then the
aggregation loop, then the row-wise quantile. -/
def nnqf_filter (x : List (List ℚ)) (y : List ℚ) (k : ℕ) (q : ℚ)
    (vw : Bool) (p : ℕ) : Except PyErr (List ℚ) :=
  if k < 1 then .error .sklearnInvalidNeighbors
  else if vw = true ∧ hasDegenerateColumn x = true then .error .sklearnNonFinite
  else if x.length < k then .error .sklearnInvalidNeighbors
  else
    match buildNeighbors y (knnTable x k p vw) with
    | .error e => .error e
    | .ok arr => npQuantileAxis1 q arr

/-- The k neighbor output values of sample i: the y values at the
indices of row i of the Neighbor Index Table. -/
def nbrOutputs (x : List (List ℚ)) (y : List ℚ) (k p : ℕ) (vw : Bool)
    (i : ℕ) : List ℚ :=
  ((knnTable x k p vw).getD i []).map fun j => y.getD j 0

/-- The minimum of a row of values, read off the sorted row. -/
def listMin (a : List ℚ) : ℚ := (sortedRow a).getD 0 0

/-- The maximum of a row of values, read off the sorted row. -/
def listMax (a : List ℚ) : ℚ := (sortedRow a).getD (a.length - 1) 0

/-! List access helpers. -/

theorem getD_map_of_lt {α β : Type} (f : α → β) (l : List α) (i : ℕ) (d : α) (e : β)
    (h : i < l.length) : (l.map f).getD i e = f (l.getD i d) := by
  rw [List.getD_eq_getElem (l.map f) e (by simpa using h), List.getD_eq_getElem l d h,
    List.getElem_map]

theorem getD_range_of_lt (n i : ℕ) (h : i < n) : (List.range n).getD i 0 = i := by
  rw [List.getD_eq_getElem _ 0 (by simpa using h)]
  exact List.getElem_range _ _

theorem getD_zipWith_of_lt (f : ℚ → ℚ → ℚ) (l1 l2 : List ℚ) (i : ℕ) (d1 d2 d : ℚ)
    (h1 : i < l1.length) (h2 : i < l2.length) :
    (List.zipWith f l1 l2).getD i d = f (l1.getD i d1) (l2.getD i d2) := by
  induction l1 generalizing l2 i with
  | nil => simp at h1
  | cons a l ih =>
    cases l2 with
    | nil => simp at h2
    | cons b m =>
      cases i with
      | zero => rfl
      | succ n => exact ih m n (by simpa using h1) (by simpa using h2)

theorem map_getD_range {α : Type} (l : List α) (d : α) :
    (List.range l.length).map (fun i => l.getD i d) = l := by
  apply List.ext_getElem
  · simp
  · intro i h1 h2
    simp only [List.getElem_map, List.getElem_range]
    exact List.getD_eq_getElem l d h2

/-! Facts about the sorted row and its endpoints. -/

theorem sortedRow_sorted (a : List ℚ) : List.Sorted (fun u v => u ≤ v) (sortedRow a) :=
  List.sorted_insertionSort _ a

theorem sortedRow_perm (a : List ℚ) : (sortedRow a).Perm a :=
  List.perm_insertionSort _ a

theorem sortedRow_length (a : List ℚ) : (sortedRow a).length = a.length :=
  (sortedRow_perm a).length_eq

theorem sorted_getD_mono {s : List ℚ} (hs : List.Sorted (fun u v => u ≤ v) s)
    {i j : ℕ} (hij : i ≤ j) (hj : j < s.length) : s.getD i 0 ≤ s.getD j 0 := by
  rcases eq_or_lt_of_le hij with rfl | hlt
  · exact le_refl _
  · have hi : i < s.length := lt_trans hlt hj
    rw [List.getD_eq_getElem s 0 hi, List.getD_eq_getElem s 0 hj]
    have := hs.rel_get_of_lt (a := ⟨i, hi⟩) (b := ⟨j, hj⟩) (Fin.mk_lt_mk.mpr hlt)
    simpa using this

theorem listMin_mem {a : List ℚ} (ha : a ≠ []) : listMin a ∈ a := by
  have hl : 0 < (sortedRow a).length := by
    rw [sortedRow_length]; exact List.length_pos.mpr ha
  have hm : listMin a ∈ sortedRow a := by
    rw [listMin, List.getD_eq_getElem _ 0 hl]; exact List.getElem_mem hl
  exact (sortedRow_perm a).mem_iff.mp hm

theorem listMin_le {a : List ℚ} {v : ℚ} (hv : v ∈ a) : listMin a ≤ v := by
  have hvs : v ∈ sortedRow a := (sortedRow_perm a).mem_iff.mpr hv
  obtain ⟨i, hi, hiv⟩ := List.mem_iff_getElem.mp hvs
  rw [listMin, ← hiv, ← List.getD_eq_getElem (sortedRow a) 0 hi]
  exact sorted_getD_mono (sortedRow_sorted a) (Nat.zero_le i) hi

theorem listMax_mem {a : List ℚ} (ha : a ≠ []) : listMax a ∈ a := by
  have hp : 0 < a.length := List.length_pos.mpr ha
  have hl : a.length - 1 < (sortedRow a).length := by
    rw [sortedRow_length]; omega
  have hm : listMax a ∈ sortedRow a := by
    rw [listMax, List.getD_eq_getElem _ 0 hl]; exact List.getElem_mem hl
  exact (sortedRow_perm a).mem_iff.mp hm

theorem le_listMax {a : List ℚ} {v : ℚ} (hv : v ∈ a) : v ≤ listMax a := by
  have hvs : v ∈ sortedRow a := (sortedRow_perm a).mem_iff.mpr hv
  obtain ⟨i, hi, hiv⟩ := List.mem_iff_getElem.mp hvs
  have hl : a.length - 1 < (sortedRow a).length := by
    rw [sortedRow_length]
    have : 0 < a.length := by rw [← sortedRow_length]; omega
    omega
  rw [listMax, ← hiv, ← List.getD_eq_getElem (sortedRow a) 0 hi]
  refine sorted_getD_mono (sortedRow_sorted a) ?_ hl
  have := sortedRow_length a
  omega

/-! Facts about linear interpolation between order statistics. -/

theorem ceil_of_floor_lt {h : ℚ} (hlt : (⌊h⌋ : ℚ) < h) : ⌈h⌉ = ⌊h⌋ + 1 := by
  have h1 : ⌊h⌋ < ⌈h⌉ := by exact_mod_cast lt_of_lt_of_le hlt (Int.le_ceil h)
  have h2 := Int.ceil_le_floor_add_one h
  omega

theorem interp_bounds {s : List ℚ} (hs : List.Sorted (fun u v => u ≤ v) s) {h : ℚ}
    (h0 : 0 ≤ h) (h1 : h ≤ (s.length : ℚ) - 1) :
    s.getD (⌊h⌋.toNat) 0 ≤ interp s h ∧ interp s h ≤ s.getD (⌈h⌉.toNat) 0 := by
  have hceil : ⌈h⌉ ≤ (s.length : ℤ) - 1 := Int.ceil_le.mpr (by push_cast; exact h1)
  have hfc := Int.floor_le_ceil h
  have hf0 : (0:ℤ) ≤ ⌊h⌋ := Int.le_floor.mpr (by exact_mod_cast h0)
  have hi1 : ⌈h⌉.toNat < s.length := by omega
  have hi0 : ⌊h⌋.toNat ≤ ⌈h⌉.toNat := by omega
  have hvv : s.getD (⌊h⌋.toNat) 0 ≤ s.getD (⌈h⌉.toNat) 0 := sorted_getD_mono hs hi0 hi1
  have hg0 : 0 ≤ h - (⌊h⌋ : ℚ) := sub_nonneg.mpr (Int.floor_le h)
  have hg1 : h - (⌊h⌋ : ℚ) < 1 := by
    have := Int.lt_floor_add_one h
    linarith
  constructor
  · have hp : 0 ≤ (h - (⌊h⌋ : ℚ)) * (s.getD (⌈h⌉.toNat) 0 - s.getD (⌊h⌋.toNat) 0) :=
      mul_nonneg hg0 (by linarith)
    unfold interp
    linarith
  · have hp : 0 ≤ (1 - (h - (⌊h⌋ : ℚ))) * (s.getD (⌈h⌉.toNat) 0 - s.getD (⌊h⌋.toNat) 0) :=
      mul_nonneg (by linarith) (by linarith)
    unfold interp
    nlinarith [hp]

theorem interp_ge_head {s : List ℚ} (hs : List.Sorted (fun u v => u ≤ v) s) {h : ℚ}
    (h0 : 0 ≤ h) (h1 : h ≤ (s.length : ℚ) - 1) : s.getD 0 0 ≤ interp s h := by
  have hceil : ⌈h⌉ ≤ (s.length : ℤ) - 1 := Int.ceil_le.mpr (by push_cast; exact h1)
  have hfc := Int.floor_le_ceil h
  have hf0 : (0:ℤ) ≤ ⌊h⌋ := Int.le_floor.mpr (by exact_mod_cast h0)
  refine le_trans (sorted_getD_mono hs (Nat.zero_le _) (by omega)) (interp_bounds hs h0 h1).1

theorem interp_le_last {s : List ℚ} (hs : List.Sorted (fun u v => u ≤ v) s) {h : ℚ}
    (h0 : 0 ≤ h) (h1 : h ≤ (s.length : ℚ) - 1) : interp s h ≤ s.getD (s.length - 1) 0 := by
  have hceil : ⌈h⌉ ≤ (s.length : ℤ) - 1 := Int.ceil_le.mpr (by push_cast; exact h1)
  have hfc := Int.floor_le_ceil h
  have hf0 : (0:ℤ) ≤ ⌊h⌋ := Int.le_floor.mpr (by exact_mod_cast h0)
  refine le_trans (interp_bounds hs h0 h1).2 (sorted_getD_mono hs (by omega) (by omega))

theorem interp_mono {s : List ℚ} (hs : List.Sorted (fun u v => u ≤ v) s) {g h : ℚ}
    (h0 : 0 ≤ g) (hgh : g ≤ h) (h1 : h ≤ (s.length : ℚ) - 1) :
    interp s g ≤ interp s h := by
  have hbg := interp_bounds hs h0 (le_trans hgh h1)
  have hbh := interp_bounds hs (le_trans h0 hgh) h1
  have hfg0 : (0:ℤ) ≤ ⌊g⌋ := Int.le_floor.mpr (by exact_mod_cast h0)
  have hfloorle : ⌊g⌋ ≤ ⌊h⌋ := Int.floor_le_floor hgh
  have hceilh : ⌈h⌉ ≤ (s.length : ℤ) - 1 := Int.ceil_le.mpr (by push_cast; exact h1)
  have hfch := Int.floor_le_ceil h
  rcases eq_or_lt_of_le hfloorle with heq | hlt
  · rcases eq_or_lt_of_le (Int.floor_le g) with hg0 | hg0
    · -- g is an integer: interp s g is the floor value
      have hzero : g - (⌊g⌋ : ℚ) = 0 := by rw [hg0]; ring
      have hig : interp s g = s.getD (⌊g⌋.toNat) 0 := by
        unfold interp
        rw [hzero]
        ring
      rw [hig, heq]
      exact hbh.1
    · -- both fractional parts positive, same floor, same ceil
      have hh0 : (⌊h⌋ : ℚ) < h := by
        have : ((⌊h⌋ : ℚ)) = (⌊g⌋ : ℚ) := by exact_mod_cast heq.symm
        rw [this]
        exact lt_of_lt_of_le hg0 hgh
      have hcg := ceil_of_floor_lt hg0
      have hch := ceil_of_floor_lt hh0
      have hfeq : ((⌊g⌋ : ℚ)) = (⌊h⌋ : ℚ) := by exact_mod_cast heq
      have hvle : s.getD (⌊h⌋.toNat) 0 ≤ s.getD ((⌊h⌋ + 1).toNat) 0 := by
        apply sorted_getD_mono hs (by omega)
        rw [← hch]
        omega
      unfold interp
      rw [hcg, hch, heq]
      have hgam : g - (⌊h⌋ : ℚ) ≤ h - (⌊h⌋ : ℚ) := by linarith
      exact add_le_add_left (mul_le_mul_of_nonneg_right hgam (by linarith)) _
  · -- distinct floors: chain through the intermediate order statistics
    refine le_trans hbg.2 (le_trans ?_ hbh.1)
    apply sorted_getD_mono hs
    · have := Int.ceil_le_floor_add_one g
      omega
    · omega

/-! Corollaries for the row quantile. -/

theorem rowQuantile_bounds {a : List ℚ} (ha : a ≠ []) {q : ℚ} (h0 : 0 ≤ q) (h1 : q ≤ 1) :
    listMin a ≤ rowQuantile q a ∧ rowQuantile q a ≤ listMax a := by
  have hL : 0 < a.length := List.length_pos.mpr ha
  have hone : (1:ℚ) ≤ (a.length : ℚ) := by exact_mod_cast hL
  have hd : (0:ℚ) ≤ (a.length : ℚ) - 1 := by linarith
  have hh0 : 0 ≤ q * ((a.length : ℚ) - 1) := mul_nonneg h0 hd
  have hh1 : q * ((a.length : ℚ) - 1) ≤ ((sortedRow a).length : ℚ) - 1 := by
    rw [sortedRow_length]
    nlinarith
  constructor
  · exact interp_ge_head (sortedRow_sorted a) hh0 hh1
  · have := interp_le_last (sortedRow_sorted a) hh0 hh1
    rwa [sortedRow_length] at this

theorem rowQuantile_zero (a : List ℚ) : rowQuantile 0 a = listMin a := by
  simp [rowQuantile, interp, listMin]

theorem rowQuantile_one {a : List ℚ} (ha : a ≠ []) : rowQuantile 1 a = listMax a := by
  have hL : 1 ≤ a.length := List.length_pos.mpr ha
  have hcast : (1:ℚ) * ((a.length : ℚ) - 1) = ((a.length - 1 : ℕ) : ℚ) := by
    push_cast [hL]
    ring
  unfold rowQuantile interp listMax
  rw [hcast, Int.floor_natCast, Int.ceil_natCast]
  simp

theorem rowQuantile_single (q c : ℚ) : rowQuantile q [c] = c := by
  unfold rowQuantile interp sortedRow
  norm_num [List.insertionSort, List.orderedInsert]

theorem rowQuantile_mono {a : List ℚ} (ha : a ≠ []) {q1 q2 : ℚ}
    (h0 : 0 ≤ q1) (h12 : q1 ≤ q2) (h1 : q2 ≤ 1) :
    rowQuantile q1 a ≤ rowQuantile q2 a := by
  have hL : 0 < a.length := List.length_pos.mpr ha
  have hone : (1:ℚ) ≤ (a.length : ℚ) := by exact_mod_cast hL
  have hd : (0:ℚ) ≤ (a.length : ℚ) - 1 := by linarith
  apply interp_mono (sortedRow_sorted a)
  · exact mul_nonneg h0 hd
  · exact mul_le_mul_of_nonneg_right h12 hd
  · rw [sortedRow_length]
    nlinarith

/-! Facts about the aggregation stage. -/

theorem gatherRow_ok_of {y : List ℚ} {r : List ℕ} (h : ∀ j ∈ r, j < y.length) :
    gatherRow y r = .ok (r.map fun j => y.getD j 0) := by
  have hall : (r.all fun j => decide (j < y.length)) = true := by
    rw [List.all_eq_true]
    intro j hj
    simpa using h j hj
  rw [gatherRow, if_pos hall]

theorem gatherRow_ok {y : List ℚ} {r : List ℕ} {g : List ℚ}
    (h : gatherRow y r = .ok g) :
    g = r.map (fun j => y.getD j 0) ∧ ∀ j ∈ r, j < y.length := by
  rw [gatherRow] at h
  split at h
  · next hc =>
      refine ⟨by injection h with h2; exact h2.symm, ?_⟩
      intro j hj
      simpa using List.all_eq_true.mp hc j hj
  · exact absurd h (by simp)

theorem gatherRows_ok_of {y : List ℚ} {l : List (List ℕ)}
    (h : ∀ r ∈ l, ∀ j ∈ r, j < y.length) :
    gatherRows y l = .ok (l.map fun r => r.map fun j => y.getD j 0) := by
  induction l with
  | nil => rfl
  | cons r rs ih =>
    rw [gatherRows, gatherRow_ok_of (fun j hj => h r (List.mem_cons_self r rs) j hj),
      ih (fun t ht => h t (List.mem_cons_of_mem r ht))]
    rfl

theorem gatherRows_ok {y : List ℚ} {l : List (List ℕ)} {m : List (List ℚ)}
    (h : gatherRows y l = .ok m) :
    m = l.map fun r => r.map fun j => y.getD j 0 := by
  induction l generalizing m with
  | nil =>
    rw [gatherRows] at h
    injection h with h2
    simp [h2.symm]
  | cons r rs ih =>
    rw [gatherRows] at h
    cases hgr : gatherRow y r with
    | error e => rw [hgr] at h; exact absurd h (by simp)
    | ok g =>
      rw [hgr] at h
      cases hgs : gatherRows y rs with
      | error e => rw [hgs] at h; exact absurd h (by simp)
      | ok gs =>
        rw [hgs] at h
        injection h with h2
        rw [← h2, List.map_cons, (gatherRow_ok hgr).1, ih hgs]

theorem buildNeighbors_single {y : List ℚ} {r : List ℕ} {g : List ℚ}
    (h : gatherRow y r = .ok g) : buildNeighbors y [r] = .ok (.one g) := by
  rw [buildNeighbors, h]

theorem buildNeighbors_two_of {y : List ℚ} {l : List (List ℕ)} (h2 : 2 ≤ l.length)
    (h : ∀ r ∈ l, ∀ j ∈ r, j < y.length) :
    buildNeighbors y l = .ok (.two (l.map fun r => r.map fun j => y.getD j 0)) := by
  cases l with
  | nil => simp at h2
  | cons r1 rest =>
    cases rest with
    | nil => simp at h2
    | cons r2 tail => rw [buildNeighbors, gatherRows_ok_of h]

theorem buildNeighbors_ok_two {y : List ℚ} {indx : List (List ℕ)} {m : List (List ℚ)}
    (h : buildNeighbors y indx = .ok (.two m)) :
    m = indx.map (fun r => r.map fun j => y.getD j 0) ∧ 2 ≤ indx.length := by
  cases indx with
  | nil => rw [buildNeighbors] at h; exact absurd h (by simp)
  | cons r1 rest =>
    cases rest with
    | nil =>
      rw [buildNeighbors] at h
      cases hgr : gatherRow y r1 with
      | error e => rw [hgr] at h; exact absurd h (by simp)
      | ok g => rw [hgr] at h; exact absurd h (by simp)
    | cons r2 tail =>
      rw [buildNeighbors] at h
      cases hgs : gatherRows y (r1 :: r2 :: tail) with
      | error e => rw [hgs] at h; exact absurd h (by simp)
      | ok m2 =>
        rw [hgs] at h
        injection h with h2
        injection h2 with h3
        refine ⟨?_, by simp⟩
        rw [← h3]
        exact gatherRows_ok hgs

/-! Facts about the Minkowski distance model. -/

theorem minkPow_nonneg (p : ℕ) (u v : List ℚ) : 0 ≤ minkPow p u v := by
  induction u generalizing v with
  | nil => simp [minkPow]
  | cons a u ih =>
    cases v with
    | nil => simp [minkPow]
    | cons b w =>
      have h1 : (0:ℚ) ≤ |a - b| ^ p := pow_nonneg (abs_nonneg _) p
      have h2 := ih w
      simp only [minkPow, List.zipWith_cons_cons, List.sum_cons] at *
      linarith

theorem minkPow_self (p : ℕ) (hp : 1 ≤ p) (u : List ℚ) : minkPow p u u = 0 := by
  induction u with
  | nil => rfl
  | cons a u ih =>
    simp only [minkPow, List.zipWith_cons_cons, List.sum_cons] at *
    rw [sub_self, abs_zero, zero_pow (by omega : p ≠ 0), ih]
    ring

theorem minkPow_pos {p : ℕ} (hp : 1 ≤ p) {u v : List ℚ} (hlen : u.length = v.length)
    (hne : u ≠ v) : 0 < minkPow p u v := by
  induction u generalizing v with
  | nil =>
    cases v with
    | nil => exact absurd rfl hne
    | cons b w => simp at hlen
  | cons a u ih =>
    cases v with
    | nil => simp at hlen
    | cons b w =>
      simp only [minkPow, List.zipWith_cons_cons, List.sum_cons]
      by_cases hab : a = b
      · have htail : u ≠ w := by
          intro hq
          exact hne (by rw [hab, hq])
        have hIH : 0 < minkPow p u w := ih (by simpa using hlen) htail
        have h1 : (0:ℚ) ≤ |a - b| ^ p := pow_nonneg (abs_nonneg _) p
        simp only [minkPow] at hIH
        linarith
      · have h1 : 0 < |a - b| ^ p := pow_pos (abs_pos.mpr (sub_ne_zero.mpr hab)) p
        have h2 := minkPow_nonneg p u w
        simp only [minkPow] at h2
        linarith

/-! Facts about the neighbor search model. -/

theorem featureWeight_length (vw : Bool) (x : List (List ℚ)) :
    (featureWeight vw x).length = x.length := by
  cases vw <;> simp [featureWeight, weightMatrix]

theorem knnRow_length (p : ℕ) (xw : List (List ℚ)) (u : List ℚ) (k : ℕ) :
    (knnRow p xw u k).length = min k xw.length := by
  unfold knnRow
  rw [List.length_map, List.length_take, List.length_insertionSort, List.length_map,
    List.length_range]

theorem knnTable_length (x : List (List ℚ)) (k p : ℕ) (vw : Bool) :
    (knnTable x k p vw).length = x.length := by
  unfold knnTable
  simp [featureWeight_length]

theorem knnTable_getD (x : List (List ℚ)) (k p : ℕ) (vw : Bool) (i : ℕ)
    (hi : i < x.length) :
    (knnTable x k p vw).getD i [] =
      knnRow p (featureWeight vw x) ((featureWeight vw x).getD i []) k := by
  unfold knnTable
  have hlen : i < (List.range (featureWeight vw x).length).length := by
    simpa [featureWeight_length] using hi
  rw [getD_map_of_lt _ _ _ 0 _ hlen, getD_range_of_lt _ _ (by simpa [featureWeight_length] using hi)]

theorem knnRow_mem_lt {p : ℕ} {xw : List (List ℚ)} {u : List ℚ} {k : ℕ} {j : ℕ}
    (hj : j ∈ knnRow p xw u k) : j < xw.length := by
  unfold knnRow at hj
  obtain ⟨pr, hpr, rfl⟩ := List.mem_map.mp hj
  have hpr2 : pr ∈ List.insertionSort pairLe
      ((List.range xw.length).map fun j => (minkPow p u (xw.getD j []), j)) :=
    List.mem_of_mem_take hpr
  have hpr3 := (List.perm_insertionSort pairLe _).mem_iff.mp hpr2
  obtain ⟨t, ht, rfl⟩ := List.mem_map.mp hpr3
  exact List.mem_range.mp ht

theorem knnRow_self {p : ℕ} (hp : 1 ≤ p) {xw : List (List ℚ)} {S i : ℕ}
    (hi : i < xw.length)
    (hrect : ∀ r ∈ xw, r.length = S)
    (hdist : xw.Pairwise (fun r t => r ≠ t)) :
    knnRow p xw (xw.getD i []) 1 = [i] := by
  set u := xw.getD i [] with hu
  set pairs := (List.range xw.length).map fun j => (minkPow p u (xw.getD j []), j) with hpairs
  have hmem_pairs : ∀ pr ∈ pairs, pr.2 < xw.length ∧ pr.1 = minkPow p u (xw.getD pr.2 []) := by
    intro pr hpr
    rw [hpairs] at hpr
    obtain ⟨j, hj, rfl⟩ := List.mem_map.mp hpr
    exact ⟨List.mem_range.mp hj, rfl⟩
  have hself : ((0 : ℚ), i) ∈ pairs := by
    have hm : (minkPow p u (xw.getD i []), i) ∈ pairs := by
      rw [hpairs]
      exact List.mem_map.mpr ⟨i, List.mem_range.mpr hi, rfl⟩
    rwa [← hu, minkPow_self p hp u] at hm
  have hpos : ∀ j, j < xw.length → j ≠ i → 0 < minkPow p u (xw.getD j []) := by
    intro j hj hne
    apply minkPow_pos hp
    · have h1 : xw.getD i [] ∈ xw := by
        rw [List.getD_eq_getElem _ _ hi]; exact List.getElem_mem hi
      have h2 : xw.getD j [] ∈ xw := by
        rw [List.getD_eq_getElem _ _ hj]; exact List.getElem_mem hj
      rw [hu, hrect _ h1, hrect _ h2]
    · rw [hu, List.getD_eq_getElem _ _ hi, List.getD_eq_getElem _ _ hj]
      rcases Nat.lt_or_ge i j with hij | hij
      · exact List.pairwise_iff_getElem.mp hdist i j hi hj hij
      · have hji : j < i := by omega
        exact (List.pairwise_iff_getElem.mp hdist j i hj hi hji).symm
  have hslen : 0 < (List.insertionSort pairLe pairs).length := by
    rw [List.length_insertionSort, hpairs, List.length_map, List.length_range]
    omega
  obtain ⟨hd, tl, hs⟩ : ∃ hd tl, List.insertionSort pairLe pairs = hd :: tl := by
    cases hcase : List.insertionSort pairLe pairs with
    | nil => rw [hcase] at hslen; simp at hslen
    | cons a b => exact ⟨a, b, rfl⟩
  have hsorted := List.sorted_insertionSort pairLe pairs
  rw [hs] at hsorted
  have hperm := List.perm_insertionSort pairLe pairs
  have hhd_mem : hd ∈ pairs := hperm.mem_iff.mp (by rw [hs]; exact List.mem_cons_self hd tl)
  have hle : pairLe hd (0, i) := by
    have h0s : ((0:ℚ), i) ∈ List.insertionSort pairLe pairs := hperm.mem_iff.mpr hself
    rw [hs] at h0s
    rcases List.mem_cons.mp h0s with heq | htl
    · rw [← heq]
      exact Or.inr ⟨rfl, le_refl _⟩
    · exact (List.sorted_cons.mp hsorted).1 _ htl
  obtain ⟨hj, hjeq⟩ := hmem_pairs hd hhd_mem
  have hd2 : hd.2 = i := by
    by_contra hne
    have hposd := hpos hd.2 hj hne
    rw [← hjeq] at hposd
    rcases hle with hlt | ⟨heq0, _⟩
    · have : hd.1 < (0:ℚ) := hlt
      linarith
    · have : hd.1 = (0:ℚ) := heq0
      linarith
  unfold knnRow
  rw [← hpairs, hs]
  simp [hd2]

/-! Characterization of a successful run of the whole pipeline. -/

theorem nnqf_filter_ok {x : List (List ℚ)} {y yq : List ℚ} {k p : ℕ} {q : ℚ} {vw : Bool}
    (h : nnqf_filter x y k q vw p = .ok yq) :
    1 ≤ k ∧ k ≤ x.length ∧ 0 ≤ q ∧ q ≤ 1 ∧
    ∃ m : List (List ℚ),
      buildNeighbors y (knnTable x k p vw) = .ok (.two m) ∧ yq = m.map (rowQuantile q) := by
  by_cases h1 : k < 1
  · rw [nnqf_filter, if_pos h1] at h
    exact Except.noConfusion h
  by_cases h2 : vw = true ∧ hasDegenerateColumn x = true
  · rw [nnqf_filter, if_neg h1, if_pos h2] at h
    exact Except.noConfusion h
  by_cases h3 : x.length < k
  · rw [nnqf_filter, if_neg h1, if_neg h2, if_pos h3] at h
    exact Except.noConfusion h
  rw [nnqf_filter, if_neg h1, if_neg h2, if_neg h3] at h
  cases hb : buildNeighbors y (knnTable x k p vw) with
  | error e => rw [hb] at h; exact Except.noConfusion h
  | ok arr =>
    rw [hb] at h
    have hnp : npQuantileAxis1 q arr = Except.ok yq := h
    unfold npQuantileAxis1 at hnp
    by_cases hq : q < 0 ∨ 1 < q
    · rw [if_pos hq] at hnp
      exact Except.noConfusion hnp
    · rw [if_neg hq] at hnp
      cases arr with
      | one g => exact Except.noConfusion hnp
      | two m =>
        injection hnp with hinj
        push_neg at hq
        exact ⟨by omega, by omega, hq.1, hq.2, m, rfl, hinj.symm⟩

theorem nnqf_filter_ok_spec {x : List (List ℚ)} {y yq : List ℚ} {k p : ℕ} {q : ℚ}
    {vw : Bool} (hok : nnqf_filter x y k q vw p = .ok yq) :
    yq.length = x.length ∧ 0 ≤ q ∧ q ≤ 1 ∧
    ∀ i, i < yq.length →
      yq.getD i 0 = rowQuantile q (nbrOutputs x y k p vw i) ∧
      (nbrOutputs x y k p vw i).length = k ∧
      nbrOutputs x y k p vw i ≠ [] := by
  obtain ⟨hk1, hkN, hq0, hq1, m, hb, hyq⟩ := nnqf_filter_ok hok
  obtain ⟨hm, hN2⟩ := buildNeighbors_ok_two hb
  have hTlen : (knnTable x k p vw).length = x.length := knnTable_length x k p vw
  have hmlen : m.length = (knnTable x k p vw).length := by rw [hm, List.length_map]
  have hyqlen : yq.length = x.length := by rw [hyq, List.length_map]; omega
  refine ⟨hyqlen, hq0, hq1, ?_⟩
  intro i hi
  have him : i < m.length := by rw [hyq, List.length_map] at hi; exact hi
  have hiT : i < (knnTable x k p vw).length := by omega
  have hix : i < x.length := by omega
  have hrowlen : (nbrOutputs x y k p vw i).length = k := by
    unfold nbrOutputs
    rw [List.length_map, knnTable_getD x k p vw i hix, knnRow_length, featureWeight_length]
    omega
  have hval : yq.getD i 0 = rowQuantile q (nbrOutputs x y k p vw i) := by
    rw [hyq, getD_map_of_lt (rowQuantile q) m i [] 0 him]
    congr 1
    rw [hm, getD_map_of_lt _ _ i [] [] hiT]
    rfl
  refine ⟨hval, hrowlen, ?_⟩
  apply List.length_pos.mp
  rw [hrowlen]
  omega

/-- C2: for every run of nnqf_filter that returns a result, the value at
each sample i lies in the closed interval between the minimum and the
maximum of the k neighbor output values of sample i, the quantile with
q = 0 equals that minimum, and the quantile with q = 1 equals that
maximum. -/
theorem nnqf_filter_bounds (x : List (List ℚ)) (y yq : List ℚ) (k p : ℕ) (q : ℚ)
    (vw : Bool) (i : ℕ)
    (hok : nnqf_filter x y k q vw p = .ok yq)
    (hi : i < yq.length) :
    listMin (nbrOutputs x y k p vw i) ∈ nbrOutputs x y k p vw i ∧
    listMax (nbrOutputs x y k p vw i) ∈ nbrOutputs x y k p vw i ∧
    (∀ v ∈ nbrOutputs x y k p vw i,
        listMin (nbrOutputs x y k p vw i) ≤ v ∧ v ≤ listMax (nbrOutputs x y k p vw i)) ∧
    listMin (nbrOutputs x y k p vw i) ≤ yq.getD i 0 ∧
    yq.getD i 0 ≤ listMax (nbrOutputs x y k p vw i) ∧
    (q = 0 → yq.getD i 0 = listMin (nbrOutputs x y k p vw i)) ∧
    (q = 1 → yq.getD i 0 = listMax (nbrOutputs x y k p vw i)) := by
  obtain ⟨hlen, hq0, hq1, hall⟩ := nnqf_filter_ok_spec hok
  obtain ⟨hval, hrowlen, hrow⟩ := hall i hi
  have hb2 := rowQuantile_bounds hrow hq0 hq1
  refine ⟨listMin_mem hrow, listMax_mem hrow,
    fun v hv => ⟨listMin_le hv, le_listMax hv⟩, ?_, ?_, ?_, ?_⟩
  · rw [hval]; exact hb2.1
  · rw [hval]; exact hb2.2
  · intro hq; rw [hval, hq]; exact rowQuantile_zero _
  · intro hq; rw [hval, hq]; exact rowQuantile_one hrow

/-- C3: with everything but q_quantile fixed, the filtered value at each
sample is monotonically non-decreasing in q_quantile. -/
theorem nnqf_filter_quantile_mono (x : List (List ℚ)) (y r1 r2 : List ℚ) (k p : ℕ)
    (q1 q2 : ℚ) (vw : Bool) (i : ℕ)
    (h12 : q1 ≤ q2)
    (h1 : nnqf_filter x y k q1 vw p = .ok r1)
    (h2 : nnqf_filter x y k q2 vw p = .ok r2)
    (hi : i < r1.length) :
    r1.getD i 0 ≤ r2.getD i 0 := by
  obtain ⟨hlen1, hq10, hq11, hall1⟩ := nnqf_filter_ok_spec h1
  obtain ⟨hlen2, hq20, hq21, hall2⟩ := nnqf_filter_ok_spec h2
  obtain ⟨hval1, hrowlen1, hrow1⟩ := hall1 i hi
  obtain ⟨hval2, hrowlen2, hrow2⟩ := hall2 i (by omega)
  rw [hval1, hval2]
  exact rowQuantile_mono hrow1 hq10 h12 hq21

/-! Evaluation helpers for the pipeline. -/

theorem nnqf_filter_eval {x : List (List ℚ)} {y : List ℚ} {k p : ℕ} {q : ℚ} {vw : Bool}
    {arr : NpArr} (hk : 1 ≤ k) (hkN : k ≤ x.length)
    (hdeg : ¬(vw = true ∧ hasDegenerateColumn x = true))
    (hb : buildNeighbors y (knnTable x k p vw) = .ok arr) :
    nnqf_filter x y k q vw p = npQuantileAxis1 q arr := by
  rw [nnqf_filter, if_neg (by omega : ¬ k < 1), if_neg hdeg,
    if_neg (by omega : ¬ x.length < k), hb]

theorem npQuantileAxis1_one {q : ℚ} {g : List ℚ} (hq0 : 0 ≤ q) (hq1 : q ≤ 1) :
    npQuantileAxis1 q (.one g) = .error .numpyAxisError := by
  unfold npQuantileAxis1
  rw [if_neg (by push_neg; exact ⟨hq0, hq1⟩)]

theorem npQuantileAxis1_two {q : ℚ} {m : List (List ℚ)} (hq0 : 0 ≤ q) (hq1 : q ≤ 1) :
    npQuantileAxis1 q (.two m) = .ok (m.map (rowQuantile q)) := by
  unfold npQuantileAxis1
  rw [if_neg (by push_neg; exact ⟨hq0, hq1⟩)]

/-! Helpers for the weighting stage. -/

theorem numCols_eq {x : List (List ℚ)} {S : ℕ} (hx : x ≠ []) (hrect : ∀ r ∈ x, r.length = S) :
    numCols x = S := by
  cases x with
  | nil => exact absurd rfl hx
  | cons r t => exact hrect r (List.mem_cons_self r t)

theorem varWeights_length (x : List (List ℚ)) : (varWeights x).length = numCols x := by
  rw [varWeights, List.length_map, List.length_range]

theorem varWeights_getD {x : List (List ℚ)} {j : ℕ} (hj : j < numCols x) :
    (varWeights x).getD j 0 = (colVar x j)⁻¹ := by
  unfold varWeights
  rw [getD_map_of_lt _ _ _ 0 _ (by simpa using hj), getD_range_of_lt _ _ hj]

/-- C5: the feature-weighting stage preserves the shape of the matrix,
is the identity when the flag is off, and when the flag is on multiplies
entry (i, j) by the inverse of the population variance (ddof = 0) of
column j. -/
theorem featureWeight_spec (x : List (List ℚ)) (S i j : ℕ)
    (hx : x ≠ []) (hrect : ∀ r ∈ x, r.length = S)
    (hv : ∀ t < S, colVar x t ≠ 0)
    (hi : i < x.length) (hj : j < S) :
    featureWeight false x = x ∧
    (featureWeight true x).map List.length = x.map List.length ∧
    ((featureWeight true x).getD i []).getD j 0 =
      (colVar x j)⁻¹ * ((x.getD i []).getD j 0) := by
  have hcols : numCols x = S := numCols_eq hx hrect
  refine ⟨rfl, ?_, ?_⟩
  · show (weightMatrix x).map List.length = x.map List.length
    rw [weightMatrix, List.map_map]
    apply List.map_congr_left
    intro r hr
    show (List.zipWith (fun w v => w * v) (varWeights x) r).length = r.length
    rw [List.length_zipWith, varWeights_length, hcols, hrect r hr]
    omega
  · show ((weightMatrix x).getD i []).getD j 0 = _
    rw [weightMatrix, getD_map_of_lt _ _ _ [] _ hi]
    have hrmem : x.getD i [] ∈ x := by
      rw [List.getD_eq_getElem _ _ hi]
      exact List.getElem_mem hi
    rw [getD_zipWith_of_lt _ _ _ _ 0 0 _ (by rw [varWeights_length, hcols]; omega)
      (by rw [hrect _ hrmem]; omega)]
    rw [varWeights_getD (by omega : j < numCols x)]

/-- C6: the aggregation stage succeeds on any in-range index table,
produces one row per table row (row 0 included, none skipped), entry
(i, j) is y at index table entry (i, j), and with two or more samples
the result is the genuine 2-D table. -/
theorem buildNeighbors_spec (y : List ℚ) (indx : List (List ℕ)) (i j : ℕ)
    (hin : ∀ r ∈ indx, ∀ a ∈ r, a < y.length)
    (hne : indx ≠ []) (hi : i < indx.length) (hj : j < (indx.getD i []).length) :
    ∃ arr, buildNeighbors y indx = .ok arr ∧
      toRows arr = indx.map (fun r => r.map fun a => y.getD a 0) ∧
      ((toRows arr).getD i []).getD j 0 = y.getD ((indx.getD i []).getD j 0) 0 ∧
      (2 ≤ indx.length → ∃ m, arr = NpArr.two m) := by
  cases indx with
  | nil => exact absurd rfl hne
  | cons r rest =>
    cases rest with
    | nil =>
      have hg := gatherRow_ok_of (fun a ha => hin r (List.mem_cons_self _ _) a ha)
      refine ⟨.one (r.map fun a => y.getD a 0), buildNeighbors_single hg, rfl, ?_, ?_⟩
      · have hi0 : i = 0 := by simpa using hi
        subst hi0
        show (r.map fun a => y.getD a 0).getD j 0 = _
        rw [getD_map_of_lt _ _ _ 0 _ (by simpa using hj)]
        rfl
      · intro h2
        simp at h2
    | cons r2 tail =>
      have hb := buildNeighbors_two_of (by simp) hin
      refine ⟨_, hb, rfl, ?_, fun _ => ⟨_, rfl⟩⟩
      show (((r :: r2 :: tail).map fun t => t.map fun a => y.getD a 0).getD i []).getD j 0 = _
      rw [getD_map_of_lt _ _ _ [] _ hi, getD_map_of_lt _ _ _ 0 _ hj]

/-- C4 (amended): with at least two samples, pairwise distinct
(possibly variance-weighted) feature rows, and num_neighbors = 1, the
filter returns y_output unchanged: each sample is its own sole nearest
neighbor and the quantile of a single value is that value. -/
theorem nnqf_filter_k1_identity (x : List (List ℚ)) (y : List ℚ) (q : ℚ) (vw : Bool)
    (p S : ℕ) (hp : 1 ≤ p) (hq0 : 0 ≤ q) (hq1 : q ≤ 1)
    (hN : 2 ≤ x.length) (hy : y.length = x.length)
    (hrect : ∀ r ∈ featureWeight vw x, r.length = S)
    (hdist : (featureWeight vw x).Pairwise (fun r t => r ≠ t))
    (hdeg : vw = true → hasDegenerateColumn x = false) :
    nnqf_filter x y 1 q vw p = .ok y := by
  have hxwlen : (featureWeight vw x).length = x.length := featureWeight_length vw x
  have hT : knnTable x 1 p vw = (List.range x.length).map fun i => [i] := by
    show (List.range (featureWeight vw x).length).map
        (fun i => knnRow p (featureWeight vw x) ((featureWeight vw x).getD i []) 1)
      = (List.range x.length).map fun i => [i]
    rw [hxwlen]
    apply List.map_congr_left
    intro i hi
    exact knnRow_self hp (by rw [hxwlen]; exact List.mem_range.mp hi) hrect hdist
  have hindx : ∀ r ∈ knnTable x 1 p vw, ∀ a ∈ r, a < y.length := by
    rw [hT]
    intro r hr a ha
    obtain ⟨i, hi, rfl⟩ := List.mem_map.mp hr
    have ha2 : a = i := by simpa using ha
    subst ha2
    rw [hy]
    exact List.mem_range.mp hi
  have hb := buildNeighbors_two_of (l := knnTable x 1 p vw)
    (by rw [knnTable_length]; omega) hindx
  have hdeg2 : ¬(vw = true ∧ hasDegenerateColumn x = true) := by
    intro hc
    have h2 := hdeg hc.1
    rw [h2] at hc
    exact Bool.noConfusion hc.2
  rw [nnqf_filter_eval (le_refl 1) (by omega) hdeg2 hb,
    npQuantileAxis1_two hq0 hq1]
  congr 1
  apply List.ext_getElem
  · simp [knnTable_length, hy]
  · intro i h1 h2
    simp only [List.getElem_map]
    have hiT : i < (knnTable x 1 p vw).length := by
      simpa using h1
    have hTi : (knnTable x 1 p vw)[i] = [i] := by
      have hir : i < (List.range x.length).length := by
        simpa [knnTable_length] using hiT
      rw [List.getElem_of_eq hT hiT, List.getElem_map, List.getElem_range]
    rw [hTi]
    show rowQuantile q [y.getD i 0] = y[i]
    rw [rowQuantile_single]
    exact List.getD_eq_getElem y 0 h2

/-- C10: on a single-sample input the aggregation accumulator stays 1-D
of shape (k,) and the quantile reduction over axis 1 fails, so the call
errors instead of returning a length-1 vector. -/
theorem nnqf_filter_single_sample (x : List (List ℚ)) (y : List ℚ) (q : ℚ) (p : ℕ)
    (hx : x.length = 1) (hy : y.length = 1) (hq0 : 0 ≤ q) (hq1 : q ≤ 1) :
    (∃ g : List ℚ, g.length = 1 ∧
        buildNeighbors y (knnTable x 1 p false) = .ok (NpArr.one g)) ∧
    nnqf_filter x y 1 q false p = .error .numpyAxisError := by
  obtain ⟨r, hr⟩ : ∃ r, x = [r] := by
    cases x with
    | nil => simp at hx
    | cons a t =>
      cases t with
      | nil => exact ⟨a, rfl⟩
      | cons b u => simp at hx
  subst hr
  have hT : knnTable [r] 1 p false = [[0]] := rfl
  have hg : gatherRow y [0] = .ok [y.getD 0 0] := by
    have := gatherRow_ok_of (y := y) (r := [0]) (by intro a ha; simp at ha; omega)
    simpa using this
  have hb : buildNeighbors y (knnTable [r] 1 p false) = .ok (.one [y.getD 0 0]) := by
    rw [hT]
    exact buildNeighbors_single hg
  refine ⟨⟨[y.getD 0 0], rfl, hb⟩, ?_⟩
  rw [nnqf_filter_eval (le_refl 1) (by simp) (by simp) hb]
  exact npQuantileAxis1_one hq0 hq1

/-! Classification of every failure the pipeline can produce. -/

theorem gatherRow_error {y : List ℚ} {r : List ℕ} {e : PyErr}
    (h : gatherRow y r = .error e) : e = .numpyIndexError := by
  rw [gatherRow] at h
  split at h
  · exact Except.noConfusion h
  · injection h with h2
    exact h2.symm

theorem gatherRows_error {y : List ℚ} {l : List (List ℕ)} {e : PyErr}
    (h : gatherRows y l = .error e) : e = .numpyIndexError := by
  induction l with
  | nil => rw [gatherRows] at h; exact Except.noConfusion h
  | cons r rs ih =>
    rw [gatherRows] at h
    cases hgr : gatherRow y r with
    | error e2 =>
      rw [hgr] at h
      injection h with h2
      rw [← h2]
      exact gatherRow_error hgr
    | ok g =>
      rw [hgr] at h
      cases hgs : gatherRows y rs with
      | error e2 =>
        rw [hgs] at h
        injection h with h2
        exact ih (h2 ▸ hgs)
      | ok gs => rw [hgs] at h; exact Except.noConfusion h

theorem buildNeighbors_error {y : List ℚ} {indx : List (List ℕ)} {e : PyErr}
    (h : buildNeighbors y indx = .error e) : e = .numpyIndexError := by
  cases indx with
  | nil =>
    rw [buildNeighbors] at h
    injection h with h2
    exact h2.symm
  | cons r rest =>
    cases rest with
    | nil =>
      rw [buildNeighbors] at h
      cases hgr : gatherRow y r with
      | error e2 =>
        rw [hgr] at h
        injection h with h2
        rw [← h2]
        exact gatherRow_error hgr
      | ok g => rw [hgr] at h; exact Except.noConfusion h
    | cons r2 tail =>
      rw [buildNeighbors] at h
      cases hgs : gatherRows y (r :: r2 :: tail) with
      | error e2 =>
        rw [hgs] at h
        injection h with h2
        rw [← h2]
        exact gatherRows_error hgs
      | ok m => rw [hgs] at h; exact Except.noConfusion h

theorem npQuantileAxis1_error {q : ℚ} {arr : NpArr} {e : PyErr}
    (h : npQuantileAxis1 q arr = .error e) :
    e = .numpyBadQuantile ∨ e = .numpyAxisError := by
  unfold npQuantileAxis1 at h
  by_cases hq : q < 0 ∨ 1 < q
  · rw [if_pos hq] at h
    injection h with h2
    exact Or.inl h2.symm
  · rw [if_neg hq] at h
    cases arr with
    | one g =>
      injection h with h2
      exact Or.inr h2.symm
    | two m => exact Except.noConfusion h

/-- C8 (amended): every failure of nnqf_filter is one of the generic
library errors of the embedded sklearn and numpy calls; the typed
ShapeMismatch failure of the spec (like InvalidK and DegenerateFeature)
is never raised. -/
theorem nnqf_filter_error_classification (x : List (List ℚ)) (y : List ℚ) (k p : ℕ)
    (q : ℚ) (vw : Bool) (e : PyErr)
    (he : nnqf_filter x y k q vw p = .error e) :
    e = .sklearnInvalidNeighbors ∨ e = .sklearnNonFinite ∨ e = .numpyIndexError ∨
    e = .numpyBadQuantile ∨ e = .numpyAxisError := by
  by_cases h1 : k < 1
  · rw [nnqf_filter, if_pos h1] at he
    injection he with h2
    exact Or.inl h2.symm
  by_cases h2 : vw = true ∧ hasDegenerateColumn x = true
  · rw [nnqf_filter, if_neg h1, if_pos h2] at he
    injection he with h3
    exact Or.inr (Or.inl h3.symm)
  by_cases h3 : x.length < k
  · rw [nnqf_filter, if_neg h1, if_neg h2, if_pos h3] at he
    injection he with h4
    exact Or.inl h4.symm
  rw [nnqf_filter, if_neg h1, if_neg h2, if_neg h3] at he
  cases hb : buildNeighbors y (knnTable x k p vw) with
  | error e2 =>
    rw [hb] at he
    injection he with h4
    rw [← h4]
    exact Or.inr (Or.inr (Or.inl (buildNeighbors_error hb)))
  | ok arr =>
    rw [hb] at he
    have hnp : npQuantileAxis1 q arr = .error e := he
    rcases npQuantileAxis1_error hnp with h4 | h4
    · exact Or.inr (Or.inr (Or.inr (Or.inl h4)))
    · exact Or.inr (Or.inr (Or.inr (Or.inr h4)))

/-- C7 (amended): num_neighbors below 1 or above N makes the call fail
with the generic sklearn n_neighbors error at the neighbor-search stage
(provided no degenerate column error fires first), not with a typed
InvalidK failure. -/
theorem nnqf_filter_invalid_k (x : List (List ℚ)) (y : List ℚ) (k p : ℕ) (q : ℚ)
    (vw : Bool)
    (hk : k < 1 ∨ x.length < k)
    (hdeg : vw = true → hasDegenerateColumn x = false) :
    nnqf_filter x y k q vw p = .error .sklearnInvalidNeighbors := by
  have hdeg2 : ¬(vw = true ∧ hasDegenerateColumn x = true) := by
    intro hc
    have h2 := hdeg hc.1
    rw [h2] at hc
    exact Bool.noConfusion hc.2
  rcases hk with hk | hk
  · rw [nnqf_filter, if_pos hk]
  · rw [nnqf_filter, if_neg (by omega : ¬ k < 1), if_neg hdeg2, if_pos hk]

/-- C9 (amended): a zero-variance feature column under var_weighting
makes the call fail with the generic sklearn non-finite-input error at
the fit stage (the division by zero produces non-finite entries), not
with a typed DegenerateFeature failure. -/
theorem nnqf_filter_degenerate_feature (x : List (List ℚ)) (y : List ℚ) (k p : ℕ)
    (q : ℚ) (hk : 1 ≤ k) (hdeg : ∃ j, j < numCols x ∧ colVar x j = 0) :
    nnqf_filter x y k q true p = .error .sklearnNonFinite := by
  have hdc : hasDegenerateColumn x = true := by
    rw [hasDegenerateColumn, List.any_eq_true]
    obtain ⟨j, hj, hv⟩ := hdeg
    exact ⟨j, List.mem_range.mpr hj, by simp [hv]⟩
  rw [nnqf_filter, if_neg (by omega : ¬ k < 1), if_pos ⟨rfl, hdc⟩]

/-! Concrete data and evaluations. -/

/-- The example input matrix bundled with the source (lines 114-123). -/
def exampleX : List (List ℚ) :=
  [[5,3,4,6,7,8,2],[6,3,2,5,1,1,0],[7,7,8,3,5,2,9],[4,5,7,2,4,6,6],[0,1,2,4,4,5,9],
   [4,2,5,6,1,3,2],[7,4,8,1,9,5,3],[9,7,0,3,5,6,3],[8,3,7,3,9,1,1],[3,6,7,3,9,0,4]]

/-- The example output vector bundled with the source (line 126). -/
def exampleY : List ℚ := [1,5,7,3,8,2,4,6,8,4]

theorem ceil_half : (⌈(1/2 : ℚ)⌉ : ℤ) = 1 := by
  rw [Int.ceil_eq_iff]
  norm_num

/-- C1: at the valid single-sample input (N = 1, matching y_output,
num_neighbors = 1) the code does not return a length-1 vector: the
quantile reduction fails on the 1-D accumulator, contradicting the shape
invariant of the spec. -/
theorem nnqf_filter_shape_bug :
    nnqf_filter [[1,2]] [3] 1 (1/2) false 1 = .error .numpyAxisError := by
  norm_num [nnqf_filter, knnTable, featureWeight, knnRow, minkPow, hasDegenerateColumn,
    numCols, colVar, colMean, varWeights, weightMatrix, buildNeighbors, gatherRow,
    gatherRows, npQuantileAxis1, rowQuantile, sortedRow, interp,
    List.insertionSort, List.orderedInsert, pairLe, List.range_succ, ceil_half]

/-- C2 (witness): the bounds theorem applied to a concrete run. -/
theorem nnqf_filter_bounds_witness :
    nnqf_filter [[0],[1],[2]] [1,5,9] 2 (1/2) false 2 = .ok [3,3,7] ∧
    (listMin (nbrOutputs [[0],[1],[2]] [1,5,9] 2 2 false 0) ∈
        nbrOutputs [[0],[1],[2]] [1,5,9] 2 2 false 0 ∧
      listMax (nbrOutputs [[0],[1],[2]] [1,5,9] 2 2 false 0) ∈
        nbrOutputs [[0],[1],[2]] [1,5,9] 2 2 false 0 ∧
      (∀ v ∈ nbrOutputs [[0],[1],[2]] [1,5,9] 2 2 false 0,
          listMin (nbrOutputs [[0],[1],[2]] [1,5,9] 2 2 false 0) ≤ v ∧
          v ≤ listMax (nbrOutputs [[0],[1],[2]] [1,5,9] 2 2 false 0)) ∧
      listMin (nbrOutputs [[0],[1],[2]] [1,5,9] 2 2 false 0) ≤
        ([3,3,7] : List ℚ).getD 0 0 ∧
      ([3,3,7] : List ℚ).getD 0 0 ≤ listMax (nbrOutputs [[0],[1],[2]] [1,5,9] 2 2 false 0) ∧
      ((1/2 : ℚ) = 0 →
        ([3,3,7] : List ℚ).getD 0 0 = listMin (nbrOutputs [[0],[1],[2]] [1,5,9] 2 2 false 0)) ∧
      ((1/2 : ℚ) = 1 →
        ([3,3,7] : List ℚ).getD 0 0 = listMax (nbrOutputs [[0],[1],[2]] [1,5,9] 2 2 false 0))) := by
  have hok : nnqf_filter [[0],[1],[2]] [1,5,9] 2 (1/2) false 2 = .ok [3,3,7] := by
    norm_num [nnqf_filter, knnTable, featureWeight, knnRow, minkPow, hasDegenerateColumn,
      numCols, colVar, colMean, varWeights, weightMatrix, buildNeighbors, gatherRow,
      gatherRows, npQuantileAxis1, rowQuantile, sortedRow, interp,
      List.insertionSort, List.orderedInsert, pairLe, List.range_succ, ceil_half]
  exact ⟨hok, nnqf_filter_bounds [[0],[1],[2]] [1,5,9] [3,3,7] 2 2 (1/2) false 0 hok
    (by norm_num)⟩

/-- C3 (witness): the monotonicity theorem applied to a concrete pair of
runs at q = 0 and q = 1. -/
theorem nnqf_filter_quantile_mono_witness :
    nnqf_filter [[0],[1],[2]] [1,5,9] 2 0 false 2 = .ok [1,1,5] ∧
    nnqf_filter [[0],[1],[2]] [1,5,9] 2 1 false 2 = .ok [5,5,9] ∧
    ([1,1,5] : List ℚ).getD 0 0 ≤ ([5,5,9] : List ℚ).getD 0 0 := by
  have h1 : nnqf_filter [[0],[1],[2]] [1,5,9] 2 0 false 2 = .ok [1,1,5] := by
    norm_num [nnqf_filter, knnTable, featureWeight, knnRow, minkPow, hasDegenerateColumn,
      numCols, colVar, colMean, varWeights, weightMatrix, buildNeighbors, gatherRow,
      gatherRows, npQuantileAxis1, rowQuantile, sortedRow, interp,
      List.insertionSort, List.orderedInsert, pairLe, List.range_succ]
  have h2 : nnqf_filter [[0],[1],[2]] [1,5,9] 2 1 false 2 = .ok [5,5,9] := by
    norm_num [nnqf_filter, knnTable, featureWeight, knnRow, minkPow, hasDegenerateColumn,
      numCols, colVar, colMean, varWeights, weightMatrix, buildNeighbors, gatherRow,
      gatherRows, npQuantileAxis1, rowQuantile, sortedRow, interp,
      List.insertionSort, List.orderedInsert, pairLe, List.range_succ]
  exact ⟨h1, h2,
    nnqf_filter_quantile_mono [[0],[1],[2]] [1,5,9] [1,1,5] [5,5,9] 2 2 0 1 false 0
      (by norm_num) h1 h2 (by norm_num)⟩

/-- C4 (counterexample): at the valid single-sample input with
num_neighbors = 1 and trivially distinct rows, the call does not return
y_output; it fails with the numpy axis error. -/
theorem nnqf_filter_k1_single_sample_fails :
    nnqf_filter [[0]] [5] 1 (1/2) false 2 = .error .numpyAxisError ∧
    nnqf_filter [[0]] [5] 1 (1/2) false 2 ≠ .ok [5] := by
  have h : nnqf_filter [[0]] [5] 1 (1/2) false 2 = .error .numpyAxisError := by
    norm_num [nnqf_filter, knnTable, featureWeight, knnRow, minkPow, hasDegenerateColumn,
      numCols, colVar, colMean, varWeights, weightMatrix, buildNeighbors, gatherRow,
      gatherRows, npQuantileAxis1, rowQuantile, sortedRow, interp,
      List.insertionSort, List.orderedInsert, pairLe, List.range_succ]
  exact ⟨h, by rw [h]; exact fun hc => Except.noConfusion hc⟩

/-- C4 (witness): the k = 1 identity theorem applied to a concrete
two-sample run with variance weighting on. -/
theorem nnqf_filter_k1_identity_witness :
    (featureWeight true [[0],[1]]).Pairwise (fun r t => r ≠ t) ∧
    nnqf_filter [[0],[1]] [7,9] 1 (1/2) true 2 = .ok [7,9] := by
  have hdist : (featureWeight true [[0],[1]]).Pairwise (fun r t => r ≠ t) := by
    norm_num [featureWeight, weightMatrix, varWeights, numCols, colVar, colMean,
      List.range_succ, List.pairwise_cons]
  refine ⟨hdist, nnqf_filter_k1_identity [[0],[1]] [7,9] (1/2) true 2 1 (by norm_num)
    (by norm_num) (by norm_num) (by norm_num) (by norm_num) ?_ hdist ?_⟩
  · intro r hr
    simp only [featureWeight, weightMatrix, varWeights, numCols] at hr
    norm_num [List.range_succ, colVar, colMean] at hr
    rcases hr with hr | hr <;> simp [hr]
  · intro hvw
    norm_num [hasDegenerateColumn, numCols, colVar, colMean, List.range_succ]

/-- C5 (witness): the feature-weighting theorem applied to a concrete
2-by-2 matrix. -/
theorem featureWeight_spec_witness :
    (∀ t < 2, colVar [[1,2],[3,6]] t ≠ 0) ∧
    (featureWeight false [[1,2],[3,6]] = [[1,2],[3,6]] ∧
      (featureWeight true [[1,2],[3,6]]).map List.length =
        ([[1,2],[3,6]] : List (List ℚ)).map List.length ∧
      ((featureWeight true [[1,2],[3,6]]).getD 0 []).getD 1 0 =
        (colVar [[1,2],[3,6]] 1)⁻¹ * ((([[1,2],[3,6]] : List (List ℚ)).getD 0 []).getD 1 0)) := by
  have hv : ∀ t < 2, colVar [[1,2],[3,6]] t ≠ 0 := by
    intro t ht
    interval_cases t <;> norm_num [colVar, colMean]
  exact ⟨hv, featureWeight_spec [[1,2],[3,6]] 2 0 1 (by simp) (by simp) hv
    (by simp) (by simp)⟩

/-- C6 (witness): the aggregation theorem applied to a concrete 2-by-2
index table. -/
theorem buildNeighbors_spec_witness :
    ∃ arr, buildNeighbors [10,20] [[1,0],[0,0]] = .ok arr ∧
      toRows arr = ([[1,0],[0,0]] : List (List ℕ)).map
        (fun r => r.map fun a => ([10,20] : List ℚ).getD a 0) ∧
      ((toRows arr).getD 0 []).getD 0 0 =
        ([10,20] : List ℚ).getD ((([[1,0],[0,0]] : List (List ℕ)).getD 0 []).getD 0 0) 0 ∧
      (2 ≤ ([[1,0],[0,0]] : List (List ℕ)).length → ∃ m, arr = NpArr.two m) :=
  buildNeighbors_spec [10,20] [[1,0],[0,0]] 0 0 (by decide) (by decide) (by decide)
    (by decide)

/-- C7 (counterexample): with num_neighbors = 11 on the bundled 10-row
example, the call fails with the generic sklearn n_neighbors error after
the weighting stage, not with the typed InvalidK failure of the spec. -/
theorem nnqf_filter_k11_not_invalidK :
    nnqf_filter exampleX exampleY 11 (1/2) true 2 = .error .sklearnInvalidNeighbors ∧
    nnqf_filter exampleX exampleY 11 (1/2) true 2 ≠ .error .invalidK := by
  have h : nnqf_filter exampleX exampleY 11 (1/2) true 2 =
      .error .sklearnInvalidNeighbors := by
    norm_num [nnqf_filter, exampleX, exampleY, hasDegenerateColumn, numCols, colVar,
      colMean, List.range_succ]
  exact ⟨h, by rw [h]; simp⟩

/-- C7 (witness): the amended invalid-k theorem applied to a concrete
out-of-range num_neighbors. -/
theorem nnqf_filter_invalid_k_witness :
    ((3:ℕ) < 1 ∨ ([[0],[1]] : List (List ℚ)).length < 3) ∧
    nnqf_filter [[0],[1]] [1,2] 3 (1/2) false 2 = .error .sklearnInvalidNeighbors :=
  ⟨Or.inr (by norm_num),
    nnqf_filter_invalid_k [[0],[1]] [1,2] 3 2 (1/2) false (Or.inr (by norm_num))
      (fun hc => Bool.noConfusion hc)⟩

/-- C8 (counterexample): a y_output longer than N is not rejected: the
call silently computes a result from the first N entries instead of
raising a typed ShapeMismatch failure. -/
theorem nnqf_filter_shape_mismatch_silent :
    ([1,2,3] : List ℚ).length ≠ ([[0],[2]] : List (List ℚ)).length ∧
    nnqf_filter [[0],[2]] [1,2,3] 1 (1/2) false 2 = .ok [1,2] ∧
    nnqf_filter [[0],[2]] [1,2,3] 1 (1/2) false 2 ≠ .error .shapeMismatch := by
  have h : nnqf_filter [[0],[2]] [1,2,3] 1 (1/2) false 2 = .ok [1,2] := by
    norm_num [nnqf_filter, knnTable, featureWeight, knnRow, minkPow, hasDegenerateColumn,
      numCols, colVar, colMean, varWeights, weightMatrix, buildNeighbors, gatherRow,
      gatherRows, npQuantileAxis1, rowQuantile, sortedRow, interp,
      List.insertionSort, List.orderedInsert, pairLe, List.range_succ]
  exact ⟨by norm_num, h, by rw [h]; simp⟩

/-- C8 (witness): the error-classification theorem applied to a concrete
failing run (y_output shorter than N, generic IndexError). -/
theorem nnqf_filter_error_classification_witness :
    nnqf_filter [[0],[2],[4]] [1,2] 1 (1/2) false 2 = .error .numpyIndexError ∧
    (PyErr.numpyIndexError = .sklearnInvalidNeighbors ∨
      PyErr.numpyIndexError = .sklearnNonFinite ∨
      PyErr.numpyIndexError = .numpyIndexError ∨
      PyErr.numpyIndexError = .numpyBadQuantile ∨
      PyErr.numpyIndexError = .numpyAxisError) := by
  have h : nnqf_filter [[0],[2],[4]] [1,2] 1 (1/2) false 2 = .error .numpyIndexError := by
    norm_num [nnqf_filter, knnTable, featureWeight, knnRow, minkPow, hasDegenerateColumn,
      numCols, colVar, colMean, varWeights, weightMatrix, buildNeighbors, gatherRow,
      gatherRows, npQuantileAxis1, rowQuantile, sortedRow, interp,
      List.insertionSort, List.orderedInsert, pairLe, List.range_succ]
  exact ⟨h, nnqf_filter_error_classification [[0],[2],[4]] [1,2] 1 2 (1/2) false _ h⟩

/-- C9 (counterexample): a zero-variance column under var_weighting makes
the call fail with the generic sklearn non-finite-input error, not with
the typed DegenerateFeature failure of the spec. -/
theorem nnqf_filter_degenerate_not_typed :
    colVar [[1,1],[2,1]] 1 = 0 ∧
    nnqf_filter [[1,1],[2,1]] [1,2] 1 (1/2) true 2 = .error .sklearnNonFinite ∧
    nnqf_filter [[1,1],[2,1]] [1,2] 1 (1/2) true 2 ≠ .error .degenerateFeature := by
  have h : nnqf_filter [[1,1],[2,1]] [1,2] 1 (1/2) true 2 = .error .sklearnNonFinite := by
    norm_num [nnqf_filter, hasDegenerateColumn, numCols, colVar, colMean, List.range_succ]
  exact ⟨by norm_num [colVar, colMean], h, by rw [h]; simp⟩

/-- C9 (witness): the amended degenerate-feature theorem applied to a
concrete constant column. -/
theorem nnqf_filter_degenerate_feature_witness :
    nnqf_filter [[3,5],[3,6]] [0,0] 1 (1/2) true 2 = .error .sklearnNonFinite :=
  nnqf_filter_degenerate_feature [[3,5],[3,6]] [0,0] 1 2 (1/2) (le_refl 1)
    ⟨0, by norm_num [numCols], by norm_num [colVar, colMean]⟩

/-- C10 (witness): the single-sample theorem applied to a concrete
single-row input. -/
theorem nnqf_filter_single_sample_witness :
    (∃ g : List ℚ, g.length = 1 ∧
        buildNeighbors [4] (knnTable [[0]] 1 2 false) = .ok (NpArr.one g)) ∧
    nnqf_filter [[0]] [4] 1 (1/3) false 2 = .error .numpyAxisError :=
  nnqf_filter_single_sample [[0]] [4] (1/3) 2 (by norm_num) (by norm_num) (by norm_num)
    (by norm_num)

end NNQF
